import Mathlib

/-!
# network-agent: the capture / filter / count pipeline of `main.go`

A shallow embedding of the body of the packet loop of `capturePackets`
(`main.go`, lines 112-192), of `ipIsInBlock` (lines 195-207) and of `hash`
(lines 262-266), followed by theorems about them.

Conventions of the embedding.

* Go strings are Lean strings; `len` and byte iteration only matter for ASCII
  text here (addresses and port numbers), and `hash` runs over the UTF-8 bytes.
* The process-wide `connMap` (`map[string]int`) is a function from keys to an
  optional count; the loop body is a function from the map before the packet
  to the map after it, together with what was sent on the `input` channel.
* The stored count is Go's `int`, 64 bits wide.  `countFlowInt64` embeds the
  increment with its wrap-around from `2^63 - 1` to `-2^63`; `countFlow` is the
  same code on unbounded integers.  The two agree on every map whose count for
  the key is below `2^63 - 1` (`countFlowInt64_eq`), and a count starts at `1`
  and moves only by `++`, so on every run from the empty map of fewer than
  `2^63` packets they agree throughout (`run_count_le_length`,
  `capturePacketsInt64_eq`).  Statements about runs are made on `countFlow`.
* Logging has no effect on the map or on the channel and is left out.
* Library calls (`strconv.Atoi`, `net.ParseIP`, `IPNet.Contains`,
  `strings.Contains`, `fnv.New32a`) are embedded by what the Go standard
  library computes, on a 64-bit platform.
-/

namespace NetworkAgent

/-! ## Data model -/

/-- The `connMap` global of line 33: flow key to stored attempt count. -/
abbrev ConnMap := String → Option Int

/-- The map `make(map[string]int)` of line 33. -/
def ConnMap.empty : ConnMap := fun _ => none

/-- The assignment `connMap[k] = v`. -/
def ConnMap.set (m : ConnMap) (k : String) (v : Int) : ConnMap :=
  fun x => if x = k then some v else m x

/-- The threshold `minConnCount` of line 34. -/
def minConnCount : Int := 5

/-- The record marshalled to JSON at lines 160-166 and 174-180. -/
structure Event where
  ID : String
  Src : String
  Dst : String
  Port : String
  Count : Int
deriving DecidableEq, Repr

/-- What one pass of the loop body sends on `input`: nothing, the record of
the branch `connMap[connHash] == minConnCount` (lines 159-172), or the record
of the final `else` branch (lines 173-187). -/
inductive EventDecision where
  | None
  | Promote (e : Event)
  | Degrade (e : Event)
deriving DecidableEq, Repr

/-- The record carried by a decision, if any. -/
def EventDecision.event : EventDecision → Option Event
  | .None => none
  | .Promote e => some e
  | .Degrade e => some e

/-- The two flags of the TCP header read at line 139. -/
structure TCPFlags where
  SYN : Bool
  ACK : Bool
deriving DecidableEq, Repr

/-- What the loop body reads from a `gopacket.Packet`.

* `ethDst`: `net.HardwareAddr(eth.DstMAC).String()` when the packet has an
  Ethernet layer (line 115-118);
* `network`: the texts `NetworkFlow().Src().String()` and
  `NetworkFlow().Dst().String()` when `packet.NetworkLayer()` is not nil;
* `transport`: the text `TransportFlow().Dst().String()` when
  `packet.TransportLayer()` is not nil;
* `tcp`: the flags of `packet.Layer(layers.LayerTypeTCP)` when not nil. -/
structure Packet where
  ethDst : Option String
  network : Option (String × String)
  transport : Option String
  tcp : Option TCPFlags
deriving DecidableEq, Repr

/-! ## Library functions -/

/-- The error kinds of `strconv` (`ErrSyntax`, `ErrRange`). -/
inductive NumError where
  | invalid
  | outOfRange
deriving DecidableEq, Repr

/-- Largest `uint64`. -/
def maxUint64 : Nat := 2 ^ 64 - 1

/-- The digit loop of `strconv.ParseUint(s, 10, 64)`: any byte that is not a
decimal digit is a syntax error with value 0; overflow returns the largest
value with a range error at once. -/
def parseUintLoop : List Char → Nat → Nat × Option NumError
  | [], n => (n, none)
  | c :: rest, n =>
    if c.isDigit then
      if n ≥ maxUint64 / 10 + 1 then (maxUint64, some .outOfRange)
      else
        let n1 := n * 10 + (c.toNat - 48)
        if n1 > maxUint64 then (maxUint64, some .outOfRange)
        else parseUintLoop rest n1
    else (0, some .invalid)

/-- The function `strconv.ParseUint(s, 10, 64)`. -/
def ParseUint (s : List Char) : Nat × Option NumError :=
  match s with
  | [] => (0, some .invalid)
  | _ => parseUintLoop s 0

/-- The function `strconv.ParseInt(s, 10, 0)` with a 64-bit `int`: optional
sign, then `ParseUint`; a syntax error gives 0, a range error the nearest
bound. -/
def ParseInt (s : List Char) : Int × Option NumError :=
  match s with
  | [] => (0, some .invalid)
  | c :: rest =>
    let neg := c = '-'
    let body := if c = '+' ∨ c = '-' then rest else s
    match ParseUint body with
    | (_, some .invalid) => (0, some .invalid)
    | (un, _) =>
      if ¬ neg ∧ un ≥ 2 ^ 63 then (2 ^ 63 - 1, some .outOfRange)
      else if neg ∧ un > 2 ^ 63 then (-(2 ^ 63), some .outOfRange)
      else (if neg then -(un : Int) else (un : Int), none)

/-- The function `strconv.Atoi`: the value and the error returned together.
Its fast path for short inputs computes the same pair as `ParseInt`. -/
def Atoi (s : String) : Int × Option NumError := ParseInt s.toList

/-- The call `strings.Contains(s, ":")`. -/
def containsColon (s : String) : Bool := s.toList.contains ':'

/-- An IP address as its bytes; an IPv4 address has four (the form `To4`
returns). -/
abbrev IP := List Nat

/-- The type `net.IPNet`: network number and mask. -/
structure IPNet where
  IP : IP
  Mask : List Nat
deriving DecidableEq, Repr

/-- The field loop of the IPv4 parser behind `net.ParseIP`: four decimal
fields of value at most 255, without leading zero, separated by single dots.
Arguments: remaining text, value and digit count of the current field, fields
read so far, whether the position is the first of the text, whether the
previous byte was a dot. -/
def parseIPv4Fields : List Char → Nat → Nat → List Nat → Bool → Bool → Option IP
  | [], val, _, fields, _, _ =>
    if fields.length < 3 then none else some (fields ++ [val])
  | c :: rest, val, digLen, fields, first, prevDot =>
    if c.isDigit then
      if digLen = 1 ∧ val = 0 then none
      else
        let v := val * 10 + (c.toNat - 48)
        if v > 255 then none
        else parseIPv4Fields rest v (digLen + 1) fields false false
    else if c = '.' then
      if first ∨ rest = [] ∨ prevDot then none
      else if fields.length = 3 then none
      else parseIPv4Fields rest 0 0 (fields ++ [val]) false true
    else none

/-- The call `net.ParseIP(s)` followed by `To4`, for text without a colon:
such text is parsed as dotted-decimal IPv4 or not at all.  Text with a colon
takes the IPv6 branch of the library, which `capturePackets` never reaches
(line 128 tests for the colon first and `||` does not evaluate further). -/
def ParseIP (s : String) : Option IP := parseIPv4Fields s.toList 0 0 [] true false

/-- The method `(*IPNet).Contains`: same length, and equal bytes under the
mask. -/
def IPNet.Contains (n : IPNet) (ip : List Nat) : Bool :=
  ip.length == n.IP.length &&
    (List.zipWith (fun a b => a == b)
      (List.zipWith (fun x m => x &&& m) n.IP n.Mask)
      (List.zipWith (fun x m => x &&& m) ip n.Mask)).all id

/-- The function `ipIsInBlock` (lines 195-207). -/
def ipIsInBlock (ip : String) (block : List IPNet) : Bool :=
  match ParseIP ip with
  | none => false
  | some ipAddr => block.any (fun b => b.Contains ipAddr)

/-- The global `ignore` as `main` leaves it (lines 47-55): the one block
`net.ParseCIDR("224.0.0.0/3")`, network number 224.0.0.0 and mask 224.0.0.0. -/
def ignore : List IPNet := [⟨[224, 0, 0, 0], [224, 0, 0, 0]⟩]

/-- The UTF-8 bytes of a character. -/
def utf8Bytes (c : Char) : List Nat :=
  let v := c.toNat
  if v < 0x80 then [v]
  else if v < 0x800 then [0xC0 + v / 64, 0x80 + v % 64]
  else if v < 0x10000 then [0xE0 + v / 4096, 0x80 + v / 64 % 64, 0x80 + v % 64]
  else [0xF0 + v / 262144, 0x80 + v / 4096 % 64, 0x80 + v / 64 % 64, 0x80 + v % 64]

/-- The function `hash` (lines 262-266): 32-bit FNV-1a of the bytes of `s`. -/
def hash (s : String) : Nat :=
  (s.toList.flatMap utf8Bytes).foldl (fun h b => (Nat.xor h b) * 16777619 % 2 ^ 32) 2166136261

/-! ## The loop body of `capturePackets` -/

/-- The flow key of line 154: `fmt.Sprint(hash(srcIP+dstIP+dpt))`. -/
def connKey (srcIP dstIP dpt : String) : String :=
  toString (hash (srcIP ++ dstIP ++ dpt))

/-- Lines 113-132 of the loop body: the Ethernet and network-layer checks.
`none` is a `continue`; otherwise the texts `srcIP` and `dstIP` as they stand
at line 134, the empty string when the packet has no network layer. -/
def packetAddrs (p : Packet) : Option (String × String) :=
  if p.ethDst = some "ff:ff:ff:ff:ff:ff" then none
  else
    match p.network with
    | none => some ("", "")
    | some (srcIP, dstIP) =>
      if containsColon srcIP then none
      else if containsColon dstIP then none
      else if ipIsInBlock srcIP ignore then none
      else if ipIsInBlock dstIP ignore then none
      else some (srcIP, dstIP)

/-- The test `!tcp.SYN && tcp.ACK` of lines 136-142, false without TCP layer. -/
def ackOnly (p : Packet) : Bool :=
  p.tcp.any (fun tcp => !tcp.SYN && tcp.ACK)

/-- Lines 113-152 of the loop body: every `continue` of the filter, and the
fall-through of a packet without transport layer, is `none`; a packet that
reaches line 154 gives the three texts `srcIP`, `dstIP`, `dpt` used there.
The error of `Atoi` is logged only: its value is all that is tested. -/
def filterPacket (p : Packet) : Option (String × String × String) :=
  match packetAddrs p with
  | none => none
  | some (srcIP, dstIP) =>
    match p.transport with
    | none => none
    | some dpt =>
      if ackOnly p then none
      else if (Atoi dpt).1 > 30000 then none
      else some (srcIP, dstIP, dpt)

/-- Lines 154-190 of the loop body: the counting of one packet that reached
line 154 with the texts `srcIP`, `dstIP`, `dpt`. -/
def countFlow (connMap : ConnMap) (srcIP dstIP dpt : String) : ConnMap × EventDecision :=
  let connHash := connKey srcIP dstIP dpt
  match connMap connHash with
  | some c =>
    if c < minConnCount then
      (connMap.set connHash (c + 1), .None)
    else if c = minConnCount then
      (connMap.set connHash (c + 1), .Promote ⟨connHash, srcIP, dstIP, dpt, c⟩)
    else
      (connMap.set connHash (c + 1), .Degrade ⟨connHash, "", "", "", c⟩)
  | none => (connMap.set connHash 1, .None)

/-- One pass of the loop body (lines 112-192) on one packet. -/
def capturePacketsStep (connMap : ConnMap) (p : Packet) : ConnMap × EventDecision :=
  match filterPacket p with
  | none => (connMap, .None)
  | some (srcIP, dstIP, dpt) => countFlow connMap srcIP dstIP dpt

/-- The loop of `capturePackets` over the packets delivered by the packet
source, in arrival order: the final map and the decision of every pass. -/
def capturePackets : ConnMap → List Packet → ConnMap × List EventDecision
  | m, [] => (m, [])
  | m, p :: ps =>
    let r := capturePacketsStep m p
    let rest := capturePackets r.1 ps
    (rest.1, r.2 :: rest.2)

/-! ## The loop body on the machine integer -/

/-- The statement `connMap[connHash]++` on Go's 64-bit `int`: one more, with
wrap-around from `2^63 - 1` to `-2^63`. -/
def incrInt64 (c : Int) : Int := (c + 1 + 2 ^ 63) % 2 ^ 64 - 2 ^ 63

/-- Lines 154-190 of the loop body with the stored count as the machine
integer: `countFlow` with every `connMap[connHash]++` as `incrInt64`. -/
def countFlowInt64 (connMap : ConnMap) (srcIP dstIP dpt : String) :
    ConnMap × EventDecision :=
  let connHash := connKey srcIP dstIP dpt
  match connMap connHash with
  | some c =>
    if c < minConnCount then
      (connMap.set connHash (incrInt64 c), .None)
    else if c = minConnCount then
      (connMap.set connHash (incrInt64 c), .Promote ⟨connHash, srcIP, dstIP, dpt, c⟩)
    else
      (connMap.set connHash (incrInt64 c), .Degrade ⟨connHash, "", "", "", c⟩)
  | none => (connMap.set connHash 1, .None)

/-- One pass of the loop body (lines 112-192) with the stored count as the
machine integer. -/
def capturePacketsStepInt64 (connMap : ConnMap) (p : Packet) : ConnMap × EventDecision :=
  match filterPacket p with
  | none => (connMap, .None)
  | some (srcIP, dstIP, dpt) => countFlowInt64 connMap srcIP dstIP dpt

/-- The loop of `capturePackets` with the stored count as the machine
integer. -/
def capturePacketsInt64 : ConnMap → List Packet → ConnMap × List EventDecision
  | m, [] => (m, [])
  | m, p :: ps =>
    let r := capturePacketsStepInt64 m p
    let rest := capturePacketsInt64 r.1 ps
    (rest.1, r.2 :: rest.2)

/-- What the layer decoders of gopacket guarantee of every packet that the
packet source of line 111 delivers: a transport layer (TCP, UDP, SCTP, UDPLite,
RUDP) is decoded only from the payload of an IPv4 or IPv6 layer, so a packet
with a transport layer has a network layer; and the TCP layer is itself a
transport layer. -/
def Packet.decoded (p : Packet) : Bool :=
  (p.transport.isNone || p.network.isSome) && (p.tcp.isNone || p.transport.isSome)

/-! ## The flow counter as the specification words it -/

/-- The operation `observe` of the specification (Flow Counter, four cases),
written from its text with the threshold as a parameter: an unseen key gets
attempt count 1 and no decision; below the threshold the count is incremented
and there is no decision; at the threshold a full event with the count before
the increment is built and promoted; above it a degraded event with the count
before the increment is built. -/
def observe (threshold : Int) (m : ConnMap) (flowKey srcAddr dstAddr dstPortText : String) :
    ConnMap × EventDecision :=
  match m flowKey with
  | none => (m.set flowKey 1, .None)
  | some attemptCount =>
    if attemptCount < threshold then
      (m.set flowKey (attemptCount + 1), .None)
    else if attemptCount = threshold then
      (m.set flowKey (attemptCount + 1),
        .Promote ⟨flowKey, srcAddr, dstAddr, dstPortText, attemptCount⟩)
    else
      (m.set flowKey (attemptCount + 1), .Degrade ⟨flowKey, "", "", "", attemptCount⟩)

/-! ## Vocabulary for runs -/

/-- The flow key under which a packet is counted, if it is counted. -/
def flowKey (p : Packet) : Option String :=
  (filterPacket p).map (fun t => connKey t.1 t.2.1 t.2.2)

/-- The map before the pass on packet number `i` of a run started on `m`. -/
def mapBefore (m : ConnMap) (ps : List Packet) (i : Nat) : ConnMap :=
  (capturePackets m (ps.take i)).1

/-- The decisions of a trace that carry an event with identifier `k`. -/
def eventsFor (k : String) (tr : List EventDecision) : List EventDecision :=
  tr.filter (fun d => d.event.any (fun e => e.ID = k))

/-- The full events of a trace with identifier `k`. -/
def promotesFor (k : String) (tr : List EventDecision) : List Event :=
  tr.filterMap (fun d =>
    match d with
    | .Promote e => if e.ID = k then some e else none
    | _ => none)

/-- The decisions of a run taken at the packets counted under key `k`. -/
def decisionsAt (k : String) (ps : List Packet) (tr : List EventDecision) :
    List EventDecision :=
  ((ps.zip tr).filter (fun x => flowKey x.1 = some k)).map Prod.snd

/-- The stored count of a key that held `c` after `n` more packets of that
key. -/
def countAfter : Option Int → Nat → Option Int
  | c, 0 => c
  | none, n + 1 => some (n + 1)
  | some c, n + 1 => some (c + (n + 1))

/-- The decision of `countFlow` as a function of the count stored for the key
alone. -/
def flowDecision (c : Option Int) (k : String) (t : String × String × String) :
    EventDecision :=
  match c with
  | none => .None
  | some c =>
    if c < minConnCount then .None
    else if c = minConnCount then .Promote ⟨k, t.1, t.2.1, t.2.2, c⟩
    else .Degrade ⟨k, "", "", "", c⟩

/-- The decisions of one flow in isolation: key `k` holding count `c`, fed the
texts of its packets in order. -/
def flowRun : Option Int → String → List (String × String × String) → List EventDecision
  | _, _, [] => []
  | c, k, t :: ts => flowDecision c k t :: flowRun (countAfter c 1) k ts

/-- The texts of the packets of a run that are counted under key `k`. -/
def flowTexts (k : String) (ps : List Packet) : List (String × String × String) :=
  (ps.filter (fun p => flowKey p = some k)).filterMap filterPacket

/-- Whether a stored count has passed the threshold. -/
def passedThreshold (c : Option Int) : Bool :=
  match c with
  | none => false
  | some c => decide (minConnCount < c)

/-! ## Sample packets -/

/-- A TCP SYN to port 22 between two private addresses. -/
def pktSsh : Packet :=
  ⟨some "00:11:22:33:44:55", some ("10.0.0.1", "10.0.0.2"), some "22", some ⟨true, false⟩⟩

/-- A UDP packet to port 53 between two private addresses. -/
def pktDns : Packet :=
  ⟨some "00:11:22:33:44:55", some ("10.0.0.3", "10.0.0.2"), some "53", none⟩

/-- An ARP reply: an Ethernet frame with no network and no transport layer. -/
def pktArp : Packet :=
  ⟨some "00:11:22:33:44:55", none, none, none⟩

/-- A packet to the multicast address 224.0.0.251. -/
def pktMulticast : Packet :=
  ⟨some "01:00:5e:00:00:fb", some ("10.0.0.1", "224.0.0.251"), some "5353", none⟩

/-- A packet to destination port 30001. -/
def pktHighPort : Packet :=
  ⟨none, some ("10.0.0.1", "10.0.0.2"), some "30001", none⟩

/-- The full event of the flow of `pktSsh`. -/
def evSsh : Event :=
  ⟨connKey "10.0.0.1" "10.0.0.2" "22", "10.0.0.1", "10.0.0.2", "22", 5⟩

/-- A map that stores the threshold for every key. -/
def mapAtThreshold : ConnMap := fun _ => some 5

end NetworkAgent

namespace NetworkAgent

/-! ## The map -/

@[simp] theorem ConnMap.set_same (m : ConnMap) (k : String) (v : Int) :
    (m.set k v) k = some v := by
  simp [ConnMap.set]

@[simp] theorem ConnMap.set_other (m : ConnMap) (k x : String) (v : Int) (h : x ≠ k) :
    (m.set k v) x = m x := by
  simp [ConnMap.set, h]

@[simp] theorem ConnMap.empty_apply (k : String) : ConnMap.empty k = none := rfl

/-! ## One pass of the loop body -/

theorem step_of_filter_none (m : ConnMap) (p : Packet) (h : filterPacket p = none) :
    capturePacketsStep m p = (m, .None) := by
  simp [capturePacketsStep, h]

theorem step_of_filter_some (m : ConnMap) (p : Packet) (s d t : String)
    (h : filterPacket p = some (s, d, t)) :
    capturePacketsStep m p = countFlow m s d t := by
  simp [capturePacketsStep, h]

theorem countFlow_none (m : ConnMap) (s d t : String) (h : m (connKey s d t) = none) :
    countFlow m s d t = (m.set (connKey s d t) 1, .None) := by
  simp [countFlow, h]

theorem countFlow_some (m : ConnMap) (s d t : String) (c : Int)
    (h : m (connKey s d t) = some c) :
    countFlow m s d t =
      (m.set (connKey s d t) (c + 1), flowDecision (some c) (connKey s d t) (s, d, t)) := by
  simp only [countFlow, h, flowDecision]
  split_ifs <;> rfl

theorem countFlow_eq_observe (m : ConnMap) (s d t : String) :
    countFlow m s d t = observe 5 m (connKey s d t) s d t := by
  cases h : m (connKey s d t) with
  | none => simp [countFlow_none m s d t h, observe, h]
  | some c =>
    simp only [countFlow_some m s d t c h, observe, h, flowDecision, minConnCount]
    split_ifs <;> rfl

theorem countFlow_decision (m : ConnMap) (s d t : String) :
    (countFlow m s d t).2 = flowDecision (m (connKey s d t)) (connKey s d t) (s, d, t) := by
  cases h : m (connKey s d t) with
  | none => simp [countFlow_none m s d t h, flowDecision]
  | some c => simp [countFlow_some m s d t c h]

theorem countFlow_key (m : ConnMap) (s d t : String) :
    (countFlow m s d t).1 (connKey s d t) = countAfter (m (connKey s d t)) 1 := by
  cases h : m (connKey s d t) with
  | none => simp [countFlow_none m s d t h, countAfter]
  | some c => simp [countFlow_some m s d t c h, countAfter]

theorem countFlow_other (m : ConnMap) (s d t x : String) (h : x ≠ connKey s d t) :
    (countFlow m s d t).1 x = m x := by
  cases hc : m (connKey s d t) with
  | none => simp [countFlow_none m s d t hc, h]
  | some c => simp [countFlow_some m s d t c hc, h]

theorem step_flowKey_none (m : ConnMap) (p : Packet) (h : flowKey p = none) :
    capturePacketsStep m p = (m, .None) := by
  apply step_of_filter_none
  simpa [flowKey] using h

theorem step_flowKey_some (m : ConnMap) (p : Packet) (k : String) (h : flowKey p = some k) :
    ∃ t, filterPacket p = some t ∧ connKey t.1 t.2.1 t.2.2 = k ∧
      (capturePacketsStep m p).2 = flowDecision (m k) k t ∧
      (capturePacketsStep m p).1 k = countAfter (m k) 1 ∧
      ∀ x, x ≠ k → (capturePacketsStep m p).1 x = m x := by
  unfold flowKey at h
  cases hf : filterPacket p with
  | none => simp [hf] at h
  | some t =>
    obtain ⟨s, d, q⟩ := t
    simp only [hf, Option.map_some', Option.some.injEq] at h
    subst h
    refine ⟨(s, d, q), rfl, rfl, ?_, ?_, ?_⟩
    · rw [step_of_filter_some m p s d q hf]; exact countFlow_decision m s d q
    · rw [step_of_filter_some m p s d q hf]; exact countFlow_key m s d q
    · intro x hx
      rw [step_of_filter_some m p s d q hf]; exact countFlow_other m s d q x hx

theorem step_other (m : ConnMap) (p : Packet) (k : String) (h : flowKey p ≠ some k) :
    (capturePacketsStep m p).1 k = m k := by
  cases hk : flowKey p with
  | none => rw [step_flowKey_none m p hk]
  | some k2 =>
    obtain ⟨t, -, -, -, -, hx⟩ := step_flowKey_some m p k2 hk
    apply hx
    intro hkk
    exact h (by rw [hk, hkk])

theorem flowDecision_event_ID (c : Option Int) (k : String) (t : String × String × String)
    (e : Event) (h : (flowDecision c k t).event = some e) : e.ID = k := by
  unfold flowDecision at h
  cases c with
  | none => simp [EventDecision.event] at h
  | some c =>
    simp only [] at h
    split_ifs at h <;> simp [EventDecision.event] at h <;> rw [← h]

theorem step_event_flowKey (m : ConnMap) (p : Packet) (e : Event)
    (h : (capturePacketsStep m p).2.event = some e) : flowKey p = some e.ID := by
  cases hk : flowKey p with
  | none => rw [step_flowKey_none m p hk] at h; simp [EventDecision.event] at h
  | some k =>
    obtain ⟨t, -, -, hd, -, -⟩ := step_flowKey_some m p k hk
    rw [hd] at h
    rw [flowDecision_event_ID _ _ _ _ h]

/-! ## Runs -/

@[simp] theorem capturePackets_nil (m : ConnMap) : capturePackets m [] = (m, []) := rfl

@[simp] theorem capturePackets_cons (m : ConnMap) (p : Packet) (ps : List Packet) :
    capturePackets m (p :: ps) =
      ((capturePackets (capturePacketsStep m p).1 ps).1,
        (capturePacketsStep m p).2 :: (capturePackets (capturePacketsStep m p).1 ps).2) := rfl

theorem run_length (m : ConnMap) (ps : List Packet) :
    (capturePackets m ps).2.length = ps.length := by
  induction ps generalizing m with
  | nil => simp
  | cons p ps ih => simp [ih]

theorem run_append (m : ConnMap) (a b : List Packet) :
    capturePackets m (a ++ b) =
      ((capturePackets (capturePackets m a).1 b).1,
        (capturePackets m a).2 ++ (capturePackets (capturePackets m a).1 b).2) := by
  induction a generalizing m with
  | nil => simp
  | cons p ps ih => simp [ih]

theorem countAfter_succ (c : Option Int) (n : Nat) :
    countAfter (countAfter c 1) n = countAfter c (n + 1) := by
  cases c with
  | none =>
    cases n with
    | zero => simp [countAfter]
    | succ n => simp [countAfter]; ring
  | some c =>
    cases n with
    | zero => simp [countAfter]
    | succ n => simp [countAfter]; ring

theorem flowTexts_cons_key (k : String) (p : Packet) (ps : List Packet)
    (t : String × String × String) (hf : filterPacket p = some t) (hk : flowKey p = some k) :
    flowTexts k (p :: ps) = t :: flowTexts k ps := by
  simp [flowTexts, hk, hf]

theorem flowTexts_cons_other (k : String) (p : Packet) (ps : List Packet)
    (hk : flowKey p ≠ some k) : flowTexts k (p :: ps) = flowTexts k ps := by
  simp [flowTexts, hk]

theorem run_count (m : ConnMap) (ps : List Packet) (k : String) :
    (capturePackets m ps).1 k = countAfter (m k) (flowTexts k ps).length := by
  induction ps generalizing m with
  | nil => simp [flowTexts, countAfter]
  | cons p ps ih =>
    rw [capturePackets_cons]
    simp only []
    rw [ih]
    by_cases hk : flowKey p = some k
    · obtain ⟨t, hf, -, -, hc, -⟩ := step_flowKey_some m p k hk
      rw [hc, flowTexts_cons_key k p ps t hf hk, countAfter_succ]
      simp
    · rw [step_other m p k hk, flowTexts_cons_other k p ps hk]

theorem run_decisionsAt (m : ConnMap) (ps : List Packet) (k : String) :
    decisionsAt k ps (capturePackets m ps).2 = flowRun (m k) k (flowTexts k ps) := by
  induction ps generalizing m with
  | nil => simp [decisionsAt, flowTexts, flowRun]
  | cons p ps ih =>
    have ih2 := ih (capturePacketsStep m p).1
    unfold decisionsAt at ih2 ⊢
    rw [capturePackets_cons]
    simp only [List.zip_cons_cons]
    by_cases hk : flowKey p = some k
    · obtain ⟨t, hf, -, hd, hc, -⟩ := step_flowKey_some m p k hk
      rw [flowTexts_cons_key k p ps t hf hk]
      simp only [List.filter_cons, hk, decide_True, if_true, List.map_cons, flowRun]
      rw [ih2, hd, hc]
    · rw [flowTexts_cons_other k p ps hk]
      simp only [List.filter_cons, hk, decide_False, Bool.false_eq_true, if_false]
      rw [ih2, step_other m p k hk]

theorem run_eventsFor (m : ConnMap) (ps : List Packet) (k : String) :
    eventsFor k (capturePackets m ps).2 = eventsFor k (flowRun (m k) k (flowTexts k ps)) := by
  induction ps generalizing m with
  | nil => simp [eventsFor, flowTexts, flowRun]
  | cons p ps ih =>
    have ih2 := ih (capturePacketsStep m p).1
    unfold eventsFor at ih2 ⊢
    rw [capturePackets_cons]
    by_cases hk : flowKey p = some k
    · obtain ⟨t, hf, -, hd, hc, -⟩ := step_flowKey_some m p k hk
      rw [flowTexts_cons_key k p ps t hf hk]
      simp only [flowRun, List.filter_cons]
      rw [ih2, hd, hc]
    · rw [flowTexts_cons_other k p ps hk]
      simp only [List.filter_cons]
      have hno : (capturePacketsStep m p).2.event.any (fun e => e.ID = k) = false := by
        cases he : (capturePacketsStep m p).2.event with
        | none => rfl
        | some e =>
          have := step_event_flowKey m p e he
          simp only [Option.any_some, decide_eq_false_iff_not]
          intro hid
          exact hk (by rw [this, hid])
      rw [hno]
      simp only [Bool.false_eq_true, if_false]
      rw [ih2, step_other m p k hk]

theorem mapBefore_zero (m : ConnMap) (ps : List Packet) : mapBefore m ps 0 = m := by
  simp [mapBefore]

theorem mapBefore_cons_succ (m : ConnMap) (p : Packet) (ps : List Packet) (i : Nat) :
    mapBefore m (p :: ps) (i + 1) = mapBefore (capturePacketsStep m p).1 ps i := by
  simp [mapBefore]

theorem run_getElem? (m : ConnMap) (ps : List Packet) (i : Nat) :
    (capturePackets m ps).2[i]? =
      (ps[i]?).map (fun p => (capturePacketsStep (mapBefore m ps i) p).2) := by
  induction ps generalizing m i with
  | nil => simp
  | cons p ps ih =>
    cases i with
    | zero => simp [mapBefore_zero]
    | succ i => simp [mapBefore_cons_succ, ih]

theorem mapBefore_count (ps : List Packet) (i : Nat) (k : String) :
    mapBefore ConnMap.empty ps i k = countAfter none (flowTexts k (ps.take i)).length := by
  simp [mapBefore, run_count]

/-! ## One flow in isolation -/

theorem flowRun_length (c : Option Int) (k : String) (ts : List (String × String × String)) :
    (flowRun c k ts).length = ts.length := by
  induction ts generalizing c with
  | nil => simp [flowRun]
  | cons t ts ih => simp [flowRun, ih]

theorem flowRun_getElem? (c : Option Int) (k : String) (ts : List (String × String × String))
    (j : Nat) :
    (flowRun c k ts)[j]? = (ts[j]?).map (flowDecision (countAfter c j) k) := by
  induction ts generalizing c j with
  | nil => simp [flowRun]
  | cons t ts ih =>
    cases j with
    | zero => simp [flowRun, countAfter]
    | succ j => simp [flowRun, ih, countAfter_succ]

theorem flowRun_drop (c : Option Int) (k : String) (ts : List (String × String × String))
    (n : Nat) :
    (flowRun c k ts).drop n = flowRun (countAfter c n) k (ts.drop n) := by
  induction ts generalizing c n with
  | nil => simp [flowRun]
  | cons t ts ih =>
    cases n with
    | zero => simp [countAfter]
    | succ n => simp [flowRun, ih, countAfter_succ]

theorem flowDecision_event (c : Option Int) (k : String) (t : String × String × String)
    (e : Event) (h : (flowDecision c k t).event = some e) :
    ∃ v, c = some v ∧ 5 ≤ v ∧ e.Count = v ∧ e.ID = k := by
  unfold flowDecision minConnCount at h
  cases c with
  | none => simp [EventDecision.event] at h
  | some c =>
    simp only [] at h
    split_ifs at h with h1 h2
    · simp [EventDecision.event] at h
    · simp only [EventDecision.event, Option.some.injEq] at h
      subst h
      exact ⟨c, rfl, by omega, rfl, rfl⟩
    · simp only [EventDecision.event, Option.some.injEq] at h
      subst h
      exact ⟨c, rfl, by omega, rfl, rfl⟩

theorem flowDecision_below (c : Int) (k : String) (t : String × String × String)
    (h : c < 5) : flowDecision (some c) k t = .None := by
  simp [flowDecision, minConnCount, h]

theorem flowDecision_at (k : String) (t : String × String × String) :
    flowDecision (some 5) k t = .Promote ⟨k, t.1, t.2.1, t.2.2, 5⟩ := by
  simp [flowDecision, minConnCount]

theorem flowDecision_above (c : Int) (k : String) (t : String × String × String)
    (h : 5 < c) : flowDecision (some c) k t = .Degrade ⟨k, "", "", "", c⟩ := by
  have h1 : ¬ c < 5 := by omega
  have h2 : ¬ c = 5 := by omega
  simp [flowDecision, minConnCount, h1, h2]

theorem eventsFor_cons_none (k : String) (tr : List EventDecision) :
    eventsFor k (.None :: tr) = eventsFor k tr := by
  simp [eventsFor, EventDecision.event]

theorem eventsFor_flowRun_ge (c : Int) (k : String) (ts : List (String × String × String))
    (h : 5 ≤ c) : eventsFor k (flowRun (some c) k ts) = flowRun (some c) k ts := by
  induction ts generalizing c with
  | nil => simp [flowRun, eventsFor]
  | cons t ts ih =>
    have ih2 := ih (c + 1) (by omega)
    unfold eventsFor at ih2 ⊢
    simp only [flowRun, countAfter, List.filter_cons]
    rw [show ((↑(0 : Nat) : Int) + 1) = 1 by simp] at *
    rw [ih2]
    rcases eq_or_lt_of_le h with h5 | h5
    · subst h5
      rw [flowDecision_at]; simp [EventDecision.event]
    · rw [flowDecision_above c k t h5]; simp [EventDecision.event]

theorem eventsFor_flowRun_none (k : String) (ts : List (String × String × String)) :
    eventsFor k (flowRun none k ts) = flowRun (some 5) k (ts.drop 5) := by
  have hge := eventsFor_flowRun_ge 5 k (ts.drop 5) (by omega)
  match ts with
  | [] => simp [flowRun, eventsFor]
  | [_] => simp [flowRun, eventsFor, flowDecision, countAfter, EventDecision.event, minConnCount]
  | [_, _] => simp [flowRun, eventsFor, flowDecision, countAfter, EventDecision.event, minConnCount]
  | [_, _, _] =>
    simp [flowRun, eventsFor, flowDecision, countAfter, EventDecision.event, minConnCount]
  | [_, _, _, _] =>
    simp [flowRun, eventsFor, flowDecision, countAfter, EventDecision.event, minConnCount]
  | a :: b :: c :: d :: e :: rest =>
    simp only [List.drop_succ_cons, List.drop_zero] at hge ⊢
    have hrun : flowRun none k (a :: b :: c :: d :: e :: rest) =
        .None :: .None :: .None :: .None :: .None :: flowRun (some 5) k rest := by
      simp [flowRun, flowDecision, countAfter, minConnCount]
    rw [hrun]
    simp only [eventsFor_cons_none]
    exact hge

theorem countAfter_some (c : Int) (n : Nat) : countAfter (some c) n = some (c + n) := by
  cases n with
  | zero => simp [countAfter]
  | succ n => simp [countAfter]

theorem countAfter_none_succ (n : Nat) : countAfter none (n + 1) = some (n + 1) := by
  simp [countAfter]

theorem run_same_text (m : ConnMap) (ps : List Packet) (t : String × String × String)
    (h : ∀ p ∈ ps, filterPacket p = some t) :
    (capturePackets m ps).2 =
      flowRun (m (connKey t.1 t.2.1 t.2.2)) (connKey t.1 t.2.1 t.2.2)
        (List.replicate ps.length t) := by
  induction ps generalizing m with
  | nil => simp [flowRun]
  | cons p ps ih =>
    have hp : filterPacket p = some t := h p (by simp)
    have hk : flowKey p = some (connKey t.1 t.2.1 t.2.2) := by simp [flowKey, hp]
    obtain ⟨t2, hf, -, hd, hc, -⟩ := step_flowKey_some m p _ hk
    have ht : t2 = t := by rw [hp] at hf; exact (Option.some.inj hf).symm
    subst ht
    rw [capturePackets_cons]
    simp only [List.length_cons, List.replicate_succ, flowRun]
    rw [ih _ (fun q hq => h q (by simp [hq])), hd, hc]

theorem step_event_stored (m : ConnMap) (p : Packet) (e : Event)
    (h : (capturePacketsStep m p).2.event = some e) :
    flowKey p = some e.ID ∧ ∃ c, m e.ID = some c ∧ 5 ≤ c ∧ e.Count = c := by
  have hk := step_event_flowKey m p e h
  refine ⟨hk, ?_⟩
  obtain ⟨t, -, -, hd, -, -⟩ := step_flowKey_some m p e.ID hk
  rw [hd] at h
  obtain ⟨v, hv, h5, hcount, -⟩ := flowDecision_event _ _ _ _ h
  exact ⟨v, hv, h5, hcount⟩

theorem countAfter_none_eq_some (n : Nat) (c : Int) (h : countAfter none n = some c) :
    0 < n ∧ c = n := by
  cases n with
  | zero => simp [countAfter] at h
  | succ n =>
    simp only [countAfter, Option.some.injEq] at h
    refine ⟨by omega, ?_⟩
    rw [← h]; simp

theorem flowTexts_take_le (k : String) (ps : List Packet) (j i : Nat) (h : j ≤ i) :
    (flowTexts k (ps.take j)).length ≤ (flowTexts k (ps.take i)).length := by
  induction ps generalizing j i with
  | nil => simp
  | cons p ps ih =>
    cases j with
    | zero => simp [flowTexts]
    | succ j =>
      cases i with
      | zero => omega
      | succ i =>
        have := ih j i (by omega)
        simp only [List.take_succ_cons]
        by_cases hk : flowKey p = some k
        · cases hf : filterPacket p with
          | none => simp [flowKey, hf] at hk
          | some t =>
            rw [flowTexts_cons_key k p _ t hf hk, flowTexts_cons_key k p _ t hf hk]
            simpa using this
        · rw [flowTexts_cons_other k p _ hk, flowTexts_cons_other k p _ hk]
          exact this

theorem flowTexts_take_succ (k : String) (ps : List Packet) (j : Nat) (p : Packet)
    (hp : ps[j]? = some p) (hk : flowKey p = some k) :
    (flowTexts k (ps.take (j + 1))).length = (flowTexts k (ps.take j)).length + 1 := by
  induction ps generalizing j with
  | nil => simp at hp
  | cons q ps ih =>
    cases j with
    | zero =>
      simp only [List.getElem?_cons_zero, Option.some.injEq] at hp
      subst hp
      cases hf : filterPacket q with
      | none => simp [flowKey, hf] at hk
      | some t => simp [flowTexts, hk, hf]
    | succ j =>
      simp only [List.getElem?_cons_succ] at hp
      have := ih j hp
      simp only [List.take_succ_cons]
      by_cases hq : flowKey q = some k
      · cases hf : filterPacket q with
        | none => simp [flowKey, hf] at hq
        | some t =>
          rw [flowTexts_cons_key k q _ t hf hq, flowTexts_cons_key k q _ t hf hq]
          simpa using this
      · rw [flowTexts_cons_other k q _ hq, flowTexts_cons_other k q _ hq]
        exact this

theorem eventsFor_cons (k : String) (d : EventDecision) (tr : List EventDecision) :
    eventsFor k (d :: tr) =
      if d.event.any (fun e => e.ID = k) then d :: eventsFor k tr else eventsFor k tr := by
  simp only [eventsFor, List.filter_cons]

theorem promotesFor_cons_promote (k : String) (e : Event) (tr : List EventDecision) :
    promotesFor k (.Promote e :: tr) =
      if e.ID = k then e :: promotesFor k tr else promotesFor k tr := by
  simp only [promotesFor, List.filterMap_cons]
  split_ifs <;> rfl

theorem promotesFor_cons_degrade (k : String) (e : Event) (tr : List EventDecision) :
    promotesFor k (.Degrade e :: tr) = promotesFor k tr := by
  simp only [promotesFor, List.filterMap_cons]

theorem promotesFor_cons_none (k : String) (tr : List EventDecision) :
    promotesFor k (.None :: tr) = promotesFor k tr := by
  simp only [promotesFor, List.filterMap_cons]

theorem promotesFor_eventsFor (k : String) (tr : List EventDecision) :
    promotesFor k (eventsFor k tr) = promotesFor k tr := by
  induction tr with
  | nil => rfl
  | cons d tr ih =>
    rw [eventsFor_cons]
    cases d with
    | None => simp [EventDecision.event, promotesFor_cons_none, ih]
    | Promote e =>
      by_cases he : e.ID = k
      · simp [EventDecision.event, promotesFor_cons_promote, he, ih]
      · simp [EventDecision.event, promotesFor_cons_promote, he, ih]
    | Degrade e =>
      by_cases he : e.ID = k
      · simp [EventDecision.event, promotesFor_cons_degrade, he, ih]
      · simp [EventDecision.event, promotesFor_cons_degrade, he, ih]

theorem promotesFor_flowRun_above (c : Int) (k : String) (ts : List (String × String × String))
    (h : 5 < c) : promotesFor k (flowRun (some c) k ts) = [] := by
  induction ts generalizing c with
  | nil => rfl
  | cons t ts ih =>
    have ih2 := ih (c + 1) (by omega)
    simp only [flowRun, countAfter_some, flowDecision_above c k t h, promotesFor_cons_degrade]
    simpa using ih2

theorem promotesFor_flowRun_at (k : String) (ts : List (String × String × String)) :
    (promotesFor k (flowRun (some 5) k ts)).length = if ts = [] then 0 else 1 := by
  cases ts with
  | nil => rfl
  | cons t ts =>
    have h6 := promotesFor_flowRun_above 6 k ts (by omega)
    simp only [flowRun, countAfter_some, flowDecision_at, promotesFor_cons_promote, if_true,
      Nat.cast_one, show (5 : Int) + 1 = 6 by norm_num]
    rw [h6]
    simp

theorem step_promote (m : ConnMap) (p : Packet) (e : Event)
    (h : (capturePacketsStep m p).2 = .Promote e) :
    m e.ID = some 5 ∧ e.Count = 5 ∧ filterPacket p = some (e.Src, e.Dst, e.Port) ∧
      connKey e.Src e.Dst e.Port = e.ID := by
  have hev : (capturePacketsStep m p).2.event = some e := by rw [h]; rfl
  have hk := step_event_flowKey m p e hev
  obtain ⟨t, hf, hkey, hd, -, -⟩ := step_flowKey_some m p e.ID hk
  rw [hd] at h
  unfold flowDecision minConnCount at h
  cases hc : m e.ID with
  | none => rw [hc] at h; simp at h
  | some c =>
    rw [hc] at h
    simp only [] at h
    split_ifs at h with h1 h2
    · simp only [EventDecision.Promote.injEq] at h
      subst h2
      obtain ⟨s, d, q⟩ := t
      have hs : e.Src = s := by rw [← h]
      have hdst : e.Dst = d := by rw [← h]
      have hq : e.Port = q := by rw [← h]
      have hcount : e.Count = 5 := by rw [← h]
      refine ⟨rfl, hcount, ?_, ?_⟩
      · rw [hf, hs, hdst, hq]
      · rw [hs, hdst, hq]; exact hkey

theorem filterPacket_fields (p : Packet) (s d t : String)
    (h : filterPacket p = some (s, d, t)) :
    p.transport = some t ∧
      (p.network = some (s, d) ∨ (p.network = none ∧ s = "" ∧ d = "")) := by
  unfold filterPacket at h
  cases ha : packetAddrs p with
  | none => simp [ha] at h
  | some a =>
    obtain ⟨s2, d2⟩ := a
    cases ht : p.transport with
    | none => simp [ha, ht] at h
    | some t2 =>
      simp only [ha, ht] at h
      split_ifs at h
      simp only [Option.some.injEq, Prod.mk.injEq] at h
      obtain ⟨rfl, rfl, rfl⟩ := h
      refine ⟨rfl, ?_⟩
      unfold packetAddrs at ha
      split_ifs at ha
      cases hn : p.network with
      | none =>
        simp only [hn, Option.some.injEq, Prod.mk.injEq] at ha
        exact Or.inr ⟨rfl, ha.1.symm, ha.2.symm⟩
      | some sd =>
        obtain ⟨s3, d3⟩ := sd
        simp only [hn] at ha
        split_ifs at ha
        simp only [Option.some.injEq, Prod.mk.injEq] at ha
        obtain ⟨rfl, rfl⟩ := ha
        exact Or.inl rfl

theorem flowTexts_length_le (k : String) (ps : List Packet) :
    (flowTexts k ps).length ≤ ps.length := by
  unfold flowTexts
  exact le_trans (List.length_filterMap_le _ _) (List.length_filter_le _ _)

/-- Overflow of the machine integer needs a run of at least `2^63` packets:
in a run from the empty map every stored count is at least 1 and at most the
number of packets processed. -/
theorem run_count_le_length (ps : List Packet) (k : String) (c : Int)
    (h : (capturePackets ConnMap.empty ps).1 k = some c) : 1 ≤ c ∧ c ≤ ps.length := by
  rw [run_count, ConnMap.empty_apply] at h
  obtain ⟨hpos, hc⟩ := countAfter_none_eq_some _ _ h
  have := flowTexts_length_le k ps
  omega

theorem parseIPv4Fields_bound (cs : List Char) (val digLen : Nat) (fields : List Nat)
    (first prevDot : Bool) (ip : IP) (hv : val ≤ 255) (hf : ∀ x ∈ fields, x ≤ 255)
    (h : parseIPv4Fields cs val digLen fields first prevDot = some ip) :
    ∀ x ∈ ip, x ≤ 255 := by
  induction cs generalizing val digLen fields first prevDot with
  | nil =>
    simp only [parseIPv4Fields] at h
    split_ifs at h
    simp only [Option.some.injEq] at h
    subst h
    intro x hx
    rcases List.mem_append.1 hx with hx | hx
    · exact hf x hx
    · simp only [List.mem_singleton] at hx
      omega
  | cons c rest ih =>
    simp only [parseIPv4Fields] at h
    split_ifs at h with h1 h2 h3 h4 h5 h6
    · exact ih _ _ _ _ _ (by omega) hf h
    · refine ih _ _ _ _ _ (by omega) ?_ h
      intro x hx
      rcases List.mem_append.1 hx with hx | hx
      · exact hf x hx
      · simp only [List.mem_singleton] at hx
        omega

theorem and_224_of_ge (a : Nat) (h1 : 224 ≤ a) (h2 : a ≤ 255) : a &&& 224 = 224 := by
  interval_cases a <;> rfl

theorem ipIsInBlock_of_first_octet (s : String) (a b c e : Nat)
    (hp : ParseIP s = some [a, b, c, e]) (ha : 224 ≤ a) : ipIsInBlock s ignore = true := by
  have hb : a ≤ 255 :=
    parseIPv4Fields_bound s.toList 0 0 [] true false [a, b, c, e] (by omega)
      (by simp) hp a (by simp)
  simp [ipIsInBlock, hp, ignore, IPNet.Contains, and_224_of_ge a ha hb]

theorem step_replicate_of_filter_none (m : ConnMap) (p : Packet) (h : filterPacket p = none)
    (n : Nat) : capturePackets m (List.replicate n p) = (m, List.replicate n .None) := by
  induction n with
  | zero => rfl
  | succ n ih =>
    rw [List.replicate_succ, capturePackets_cons, step_of_filter_none m p h]
    simp [ih, List.replicate_succ]

/-! ## The machine integer -/

theorem incrInt64_eq (c : Int) (h1 : -(2 ^ 63) ≤ c) (h2 : c < 2 ^ 63 - 1) :
    incrInt64 c = c + 1 := by
  unfold incrInt64
  rw [Int.emod_eq_of_lt (by omega) (by omega)]
  omega

/-- At the largest 64-bit integer the increment wraps to the smallest. -/
theorem incrInt64_wraps : incrInt64 (2 ^ 63 - 1) = -(2 ^ 63) := by decide

theorem countFlowInt64_eq (m : ConnMap) (s d t : String)
    (hb : ∀ c, m (connKey s d t) = some c → -(2 ^ 63) ≤ c ∧ c < 2 ^ 63 - 1) :
    countFlowInt64 m s d t = countFlow m s d t := by
  unfold countFlowInt64 countFlow
  cases h : m (connKey s d t) with
  | none => simp [h]
  | some c =>
    obtain ⟨h1, h2⟩ := hb c h
    simp only [h, incrInt64_eq c h1 h2]

theorem capturePacketsStepInt64_eq (m : ConnMap) (p : Packet)
    (hb : ∀ k c, m k = some c → -(2 ^ 63) ≤ c ∧ c < 2 ^ 63 - 1) :
    capturePacketsStepInt64 m p = capturePacketsStep m p := by
  unfold capturePacketsStepInt64 capturePacketsStep
  cases filterPacket p with
  | none => rfl
  | some t =>
    obtain ⟨s, d, q⟩ := t
    exact countFlowInt64_eq m s d q (hb _)

theorem step_count_bound (m : ConnMap) (p : Packet) (B : Nat)
    (hm : ∀ k c, m k = some c → 1 ≤ c ∧ c ≤ B) :
    ∀ k c, (capturePacketsStep m p).1 k = some c → 1 ≤ c ∧ c ≤ (B + 1 : Nat) := by
  intro k c hc
  by_cases hk : flowKey p = some k
  · obtain ⟨t, -, -, -, hnew, -⟩ := step_flowKey_some m p k hk
    rw [hnew] at hc
    cases hmk : m k with
    | none =>
      rw [hmk] at hc
      simp only [countAfter, Option.some.injEq] at hc
      push_cast
      omega
    | some c0 =>
      obtain ⟨h1, h2⟩ := hm k c0 hmk
      rw [hmk] at hc
      simp only [countAfter, Option.some.injEq] at hc
      push_cast
      omega
  · rw [step_other m p k hk] at hc
    obtain ⟨h1, h2⟩ := hm k c hc
    push_cast
    omega

theorem capturePacketsInt64_eq_of_bound (ps : List Packet) (m : ConnMap) (B : Nat)
    (hm : ∀ k c, m k = some c → 1 ≤ c ∧ c ≤ B) (hB : B + ps.length < 2 ^ 63) :
    capturePacketsInt64 m ps = capturePackets m ps := by
  induction ps generalizing m B with
  | nil => rfl
  | cons p ps ih =>
    have hstep : capturePacketsStepInt64 m p = capturePacketsStep m p := by
      apply capturePacketsStepInt64_eq
      intro k c hc
      obtain ⟨h1, h2⟩ := hm k c hc
      simp only [List.length_cons] at hB
      have hB2 : (B : Int) < 2 ^ 63 - 1 := by
        have : B + 1 < 2 ^ 63 := by omega
        omega
      omega
    have hrest := ih (capturePacketsStep m p).1 (B + 1) (step_count_bound m p B hm)
      (by simp only [List.length_cons] at hB; omega)
    simp only [capturePacketsInt64, capturePackets_cons, hstep, hrest]

/-- On every run from the empty map of fewer than `2^63` packets the loop on
the machine integer and the loop on unbounded integers are the same. -/
theorem capturePacketsInt64_eq (ps : List Packet) (h : ps.length < 2 ^ 63) :
    capturePacketsInt64 ConnMap.empty ps = capturePackets ConnMap.empty ps :=
  capturePacketsInt64_eq_of_bound ps ConnMap.empty 0 (by simp) (by omega)

theorem mapAtThreshold_bound (k : String) :
    ∀ c, mapAtThreshold k = some c → -(2 ^ 63) ≤ c ∧ c < 2 ^ 63 - 1 := by
  intro c h
  simp only [mapAtThreshold, Option.some.injEq] at h
  subst h
  decide

/-! ## The claims -/

/-- C1, the scenario as the code runs it: from an empty flow map, of seven
packets with the same triple (srcA, dstB, port "22") that pass the filter, the
first five produce no event, the sixth produces the full event with Count 5
and the seventh the degraded event with Count 6 and the same ID. -/
theorem C1_promote_on_sixth_packet (ps : List Packet) (srcA dstB : String)
    (hlen : ps.length = 7)
    (hp : ∀ p ∈ ps, filterPacket p = some (srcA, dstB, "22")) :
    (capturePackets ConnMap.empty ps).2 =
      [.None, .None, .None, .None, .None,
        .Promote ⟨connKey srcA dstB "22", srcA, dstB, "22", 5⟩,
        .Degrade ⟨connKey srcA dstB "22", "", "", "", 6⟩] := by
  rw [run_same_text ConnMap.empty ps (srcA, dstB, "22") hp, hlen]
  simp [List.replicate, flowRun, flowDecision, countAfter, minConnCount]

theorem C1_promote_on_sixth_packet_witness :
    (List.replicate 7 pktSsh).length = 7 ∧
    (∀ p ∈ List.replicate 7 pktSsh, filterPacket p = some ("10.0.0.1", "10.0.0.2", "22")) ∧
    (capturePackets ConnMap.empty (List.replicate 7 pktSsh)).2 =
      [.None, .None, .None, .None, .None,
        .Promote ⟨connKey "10.0.0.1" "10.0.0.2" "22", "10.0.0.1", "10.0.0.2", "22", 5⟩,
        .Degrade ⟨connKey "10.0.0.1" "10.0.0.2" "22", "", "", "", 6⟩] :=
  ⟨by decide, by decide,
    C1_promote_on_sixth_packet (List.replicate 7 pktSsh) "10.0.0.1" "10.0.0.2"
      (by decide) (by decide)⟩

/-- C1 as stated fails: of six identical eligible packets (10.0.0.1, 10.0.0.2,
port "22") processed from the empty map, the fifth produces no event and the
sixth produces the full event with Count 5, not a degraded event. -/
theorem C1_fifth_packet_is_silent :
    (∀ p ∈ List.replicate 6 pktSsh, filterPacket p = some ("10.0.0.1", "10.0.0.2", "22")) ∧
    (capturePackets ConnMap.empty (List.replicate 6 pktSsh)).2 =
      [.None, .None, .None, .None, .None,
        .Promote ⟨connKey "10.0.0.1" "10.0.0.2" "22", "10.0.0.1", "10.0.0.2", "22", 5⟩] ∧
    (capturePackets ConnMap.empty (List.replicate 6 pktSsh)).2 ≠
      [.None, .None, .None, .None,
        .Promote ⟨connKey "10.0.0.1" "10.0.0.2" "22", "10.0.0.1", "10.0.0.2", "22", 5⟩,
        .Degrade ⟨connKey "10.0.0.1" "10.0.0.2" "22", "", "", "", 6⟩] := by
  have hf : ∀ p ∈ List.replicate 6 pktSsh,
      filterPacket p = some ("10.0.0.1", "10.0.0.2", "22") := by decide
  have htr := run_same_text ConnMap.empty (List.replicate 6 pktSsh)
    ("10.0.0.1", "10.0.0.2", "22") hf
  simp only [List.length_replicate, ConnMap.empty_apply] at htr
  refine ⟨hf, ?_, ?_⟩
  · rw [htr]
    simp [List.replicate, flowRun, flowDecision, countAfter, minConnCount]
  · rw [htr]
    simp [List.replicate, flowRun, flowDecision, countAfter, minConnCount]

/-- C2: for every flow map whose stored count for the key is a 64-bit integer
below the largest one, 2^63 - 1, and every packet that reaches the counting
code with the texts (src, dst, port) and key k = text of hash(src+dst+port),
the pass of the loop body, with the increment of the machine integer, is the
four-case observe of the specification with threshold 5: absent key, stored 1
and no event; stored count below 5, incremented by 1 and no event; stored
count 5, full event with that count and incremented by 1; stored count above
5, degraded event with that count and incremented by 1. -/
theorem C2_step_is_observe (m : ConnMap) (p : Packet) (src dst port : String)
    (hp : filterPacket p = some (src, dst, port))
    (hb : ∀ c, m (connKey src dst port) = some c → -(2 ^ 63) ≤ c ∧ c < 2 ^ 63 - 1) :
    capturePacketsStepInt64 m p = observe 5 m (connKey src dst port) src dst port ∧
    (m (connKey src dst port) = none →
      capturePacketsStepInt64 m p = (m.set (connKey src dst port) 1, .None)) ∧
    (∀ c, m (connKey src dst port) = some c → c < 5 →
      capturePacketsStepInt64 m p = (m.set (connKey src dst port) (c + 1), .None)) ∧
    (∀ c, m (connKey src dst port) = some c → c = 5 →
      capturePacketsStepInt64 m p =
        (m.set (connKey src dst port) (c + 1),
          .Promote ⟨connKey src dst port, src, dst, port, c⟩)) ∧
    (∀ c, m (connKey src dst port) = some c → 5 < c →
      capturePacketsStepInt64 m p =
        (m.set (connKey src dst port) (c + 1),
          .Degrade ⟨connKey src dst port, "", "", "", c⟩)) := by
  have hstep : capturePacketsStepInt64 m p = countFlow m src dst port := by
    simp only [capturePacketsStepInt64, hp]
    exact countFlowInt64_eq m src dst port hb
  rw [hstep]
  refine ⟨countFlow_eq_observe m src dst port, ?_, ?_, ?_, ?_⟩
  · intro h
    exact countFlow_none m src dst port h
  · intro c h hc
    rw [countFlow_some m src dst port c h, flowDecision_below c _ _ hc]
  · intro c h hc
    subst hc
    rw [countFlow_some m src dst port 5 h, flowDecision_at]
  · intro c h hc
    rw [countFlow_some m src dst port c h, flowDecision_above c _ _ hc]

theorem C2_step_is_observe_witness :
    filterPacket pktSsh = some ("10.0.0.1", "10.0.0.2", "22") ∧
    (∀ c, mapAtThreshold (connKey "10.0.0.1" "10.0.0.2" "22") = some c →
      -(2 ^ 63) ≤ c ∧ c < 2 ^ 63 - 1) ∧
    capturePacketsStepInt64 mapAtThreshold pktSsh =
      (mapAtThreshold.set (connKey "10.0.0.1" "10.0.0.2" "22") (5 + 1),
        .Promote ⟨connKey "10.0.0.1" "10.0.0.2" "22", "10.0.0.1", "10.0.0.2", "22", 5⟩) :=
  ⟨by decide, mapAtThreshold_bound _,
    (C2_step_is_observe mapAtThreshold pktSsh "10.0.0.1" "10.0.0.2" "22"
      (by decide) (mapAtThreshold_bound _)).2.2.2.1 5 rfl rfl⟩

/-- C3: in every run from the empty flow map and for every flow key k, the
number of full (Promote) events with ID k is one if the stored count of k has
passed the threshold 5 at the end of the run and zero otherwise; a full event
for k is emitted at a pass where the stored count of k is 5, has Count 5,
carries the source, destination and port texts of the packet of that pass,
and no event for k is emitted at an earlier pass. -/
theorem C3_exactly_one_promote (ps : List Packet) (k : String) :
    ((promotesFor k (capturePackets ConnMap.empty ps).2).length =
      if passedThreshold ((capturePackets ConnMap.empty ps).1 k) then 1 else 0) ∧
    (∀ i e, (capturePackets ConnMap.empty ps).2[i]? = some (.Promote e) → e.ID = k →
      mapBefore ConnMap.empty ps i k = some 5 ∧ e.Count = 5 ∧
      (∃ p, ps[i]? = some p ∧ filterPacket p = some (e.Src, e.Dst, e.Port) ∧
        connKey e.Src e.Dst e.Port = k ∧ p.transport = some e.Port ∧
        (p.network = some (e.Src, e.Dst) ∨ (p.network = none ∧ e.Src = "" ∧ e.Dst = ""))) ∧
      (∀ j d e2, j < i → (capturePackets ConnMap.empty ps).2[j]? = some d →
        d.event = some e2 → e2.ID ≠ k)) := by
  constructor
  · rw [← promotesFor_eventsFor, run_eventsFor, ConnMap.empty_apply, eventsFor_flowRun_none,
      promotesFor_flowRun_at, run_count]
    simp only [ConnMap.empty_apply]
    generalize flowTexts k ps = ts
    match ts with
    | [] => simp [countAfter, passedThreshold]
    | [_] => simp [countAfter, passedThreshold, minConnCount]
    | [_, _] => simp [countAfter, passedThreshold, minConnCount]
    | [_, _, _] => simp [countAfter, passedThreshold, minConnCount]
    | [_, _, _, _] => simp [countAfter, passedThreshold, minConnCount]
    | [_, _, _, _, _] => simp [countAfter, passedThreshold, minConnCount]
    | _ :: _ :: _ :: _ :: _ :: _ :: rest =>
      simp only [List.drop_succ_cons, List.drop_zero, List.length_cons, countAfter,
        passedThreshold, minConnCount]
      have : (5 : Int) < ((rest.length : Nat) : Int) + 5 + 1 := by omega
      simp [this]
  · intro i e hi hk
    rw [run_getElem?] at hi
    cases hp : ps[i]? with
    | none => simp [hp] at hi
    | some p =>
      simp only [hp, Option.map_some', Option.some.injEq] at hi
      obtain ⟨hm, hcount, hf, hkey⟩ := step_promote _ p e hi
      rw [hk] at hm hkey
      obtain ⟨htr, hnet⟩ := filterPacket_fields p _ _ _ hf
      refine ⟨hm, hcount, ⟨p, rfl, hf, hkey, htr, hnet⟩, ?_⟩
      intro j d e2 hji hj he2 hid
      rw [run_getElem?] at hj
      cases hq : ps[j]? with
      | none => simp [hq] at hj
      | some q =>
        simp only [hq, Option.map_some', Option.some.injEq] at hj
        rw [← hj] at he2
        obtain ⟨hkq, c, hc, h5, -⟩ := step_event_stored _ q e2 he2
        rw [hid] at hkq hc
        rw [mapBefore_count] at hc hm
        obtain ⟨-, hcj⟩ := countAfter_none_eq_some _ _ hc
        obtain ⟨-, hci⟩ := countAfter_none_eq_some _ _ hm
        have h1 := flowTexts_take_succ k ps j q hq hkq
        have h2 := flowTexts_take_le k ps (j + 1) i (by omega)
        omega

theorem C3_exactly_one_promote_witness :
    (promotesFor (connKey "10.0.0.1" "10.0.0.2" "22")
      (capturePackets ConnMap.empty (List.replicate 7 pktSsh)).2).length = 1 ∧
    (promotesFor (connKey "10.0.0.1" "10.0.0.2" "22")
      (capturePackets ConnMap.empty (List.replicate 5 pktSsh)).2).length = 0 :=
  ⟨(C3_exactly_one_promote (List.replicate 7 pktSsh)
      (connKey "10.0.0.1" "10.0.0.2" "22")).1.trans (by decide),
    (C3_exactly_one_promote (List.replicate 5 pktSsh)
      (connKey "10.0.0.1" "10.0.0.2" "22")).1.trans (by decide)⟩

/-- C4: in every run from the empty flow map, whenever a pass emits an event
(full or degraded), the key of that event is the key of the packet of that
pass, it is present in the map before the pass with a stored count of at least
the threshold 5, and the Count of the event is that stored count, so at
least 5. -/
theorem C4_no_event_below_threshold (ps : List Packet) (i : Nat) (d : EventDecision)
    (e : Event) (hd : (capturePackets ConnMap.empty ps).2[i]? = some d)
    (he : d.event = some e) :
    (∃ p, ps[i]? = some p ∧ flowKey p = some e.ID) ∧
    mapBefore ConnMap.empty ps i e.ID ≠ none ∧
    (∀ c, mapBefore ConnMap.empty ps i e.ID = some c → minConnCount ≤ c ∧ e.Count = c) ∧
    5 ≤ e.Count := by
  rw [run_getElem?] at hd
  cases hp : ps[i]? with
  | none => simp [hp] at hd
  | some p =>
    simp only [hp, Option.map_some', Option.some.injEq] at hd
    rw [← hd] at he
    obtain ⟨hk, c, hc, h5, hcount⟩ := step_event_stored _ p e he
    refine ⟨⟨p, rfl, hk⟩, by rw [hc]; simp, ?_, by omega⟩
    intro c2 hc2
    rw [hc] at hc2
    have := Option.some.inj hc2
    subst this
    exact ⟨h5, hcount⟩

theorem C4_no_event_below_threshold_witness :
    (capturePackets ConnMap.empty (List.replicate 6 pktSsh)).2[5]? = some (.Promote evSsh) ∧
    (EventDecision.Promote evSsh).event = some evSsh ∧
    5 ≤ evSsh.Count :=
  ⟨by decide, rfl,
    (C4_no_event_below_threshold (List.replicate 6 pktSsh) 5 (.Promote evSsh) evSsh
      (by decide) rfl).2.2.2⟩

/-- C5: in every run from the empty flow map and for every flow key k, the
events with ID k, in order of emission, have the Counts 5, 6, 7, ...; the
first is the full event and every later one is the degraded event with empty
Src, Dst and Port, ID k and its Count; and the Count of every event is the
count stored for its key before the pass that emits it. -/
theorem C5_degraded_after_promote (ps : List Packet) (k : String) :
    (∀ (j : Nat) (d : EventDecision),
      (eventsFor k (capturePackets ConnMap.empty ps).2)[j]? = some d →
      ∃ e, d.event = some e ∧ e.ID = k ∧ e.Count = 5 + (j : Int)) ∧
    (∀ d, (eventsFor k (capturePackets ConnMap.empty ps).2)[0]? = some d →
      ∃ e, d = .Promote e) ∧
    (∀ (j : Nat) (d : EventDecision), 0 < j →
      (eventsFor k (capturePackets ConnMap.empty ps).2)[j]? = some d →
      d = .Degrade ⟨k, "", "", "", 5 + (j : Int)⟩) ∧
    (∀ i d e, (capturePackets ConnMap.empty ps).2[i]? = some d → d.event = some e →
      mapBefore ConnMap.empty ps i e.ID = some e.Count) := by
  rw [run_eventsFor, ConnMap.empty_apply, eventsFor_flowRun_none]
  refine ⟨?_, ?_, ?_, ?_⟩
  · intro j d hj
    rw [flowRun_getElem?, countAfter_some] at hj
    cases ht : ((flowTexts k ps).drop 5)[j]? with
    | none => simp [ht] at hj
    | some t =>
      simp only [ht, Option.map_some', Option.some.injEq] at hj
      subst hj
      cases j with
      | zero =>
        simp only [Nat.cast_zero, add_zero]
        rw [flowDecision_at]
        exact ⟨_, rfl, rfl, rfl⟩
      | succ j =>
        rw [flowDecision_above _ _ _ (by push_cast; omega)]
        exact ⟨_, rfl, rfl, rfl⟩
  · intro d hd
    rw [flowRun_getElem?, countAfter_some] at hd
    cases ht : ((flowTexts k ps).drop 5)[0]? with
    | none => simp [ht] at hd
    | some t =>
      simp only [ht, Option.map_some', Option.some.injEq, Nat.cast_zero, add_zero] at hd
      subst hd
      rw [flowDecision_at]
      exact ⟨_, rfl⟩
  · intro j d hpos hj
    rw [flowRun_getElem?, countAfter_some] at hj
    cases ht : ((flowTexts k ps).drop 5)[j]? with
    | none => simp [ht] at hj
    | some t =>
      simp only [ht, Option.map_some', Option.some.injEq] at hj
      subst hj
      rw [flowDecision_above _ _ _ (by omega)]
  · intro i d e hd he
    rw [run_getElem?] at hd
    cases hp : ps[i]? with
    | none => simp [hp] at hd
    | some p =>
      simp only [hp, Option.map_some', Option.some.injEq] at hd
      rw [← hd] at he
      obtain ⟨-, c, hc, -, hcount⟩ := step_event_stored _ p e he
      rw [hc, hcount]

theorem C5_degraded_after_promote_witness :
    (eventsFor (connKey "10.0.0.1" "10.0.0.2" "22")
      (capturePackets ConnMap.empty (List.replicate 7 pktSsh)).2)[1]? =
      some (.Degrade ⟨connKey "10.0.0.1" "10.0.0.2" "22", "", "", "", 6⟩) ∧
    EventDecision.Degrade ⟨connKey "10.0.0.1" "10.0.0.2" "22", "", "", "", 6⟩ =
      .Degrade ⟨connKey "10.0.0.1" "10.0.0.2" "22", "", "", "", 5 + ((1 : Nat) : Int)⟩ :=
  ⟨by decide,
    (C5_degraded_after_promote (List.replicate 7 pktSsh)
      (connKey "10.0.0.1" "10.0.0.2" "22")).2.2.1 1 _ (by decide) (by decide)⟩

/-- C7: for every flow map and every packet delivered by the packet source
whose network layer is absent, the pass of the loop body leaves the flow map
unchanged and emits no event, once or repeated any number of times: such a
packet has no transport layer either, since gopacket decodes transport layers
only above a network layer, and the loop body does nothing without one. -/
theorem C7_no_network_layer (m : ConnMap) (p : Packet) (hd : p.decoded = true)
    (hn : p.network = none) :
    capturePacketsStep m p = (m, .None) ∧
    ∀ n, capturePackets m (List.replicate n p) = (m, List.replicate n .None) := by
  have ht : p.transport = none := by
    cases h : p.transport with
    | none => rfl
    | some t => simp [Packet.decoded, hn, h] at hd
  have hf : filterPacket p = none := by
    unfold filterPacket
    cases packetAddrs p with
    | none => rfl
    | some a => simp [ht]
  exact ⟨step_of_filter_none m p hf, step_replicate_of_filter_none m p hf⟩

theorem C7_no_network_layer_witness :
    pktArp.decoded = true ∧ pktArp.network = none ∧
    capturePacketsStep mapAtThreshold pktArp = (mapAtThreshold, .None) :=
  ⟨by decide, rfl, (C7_no_network_layer mapAtThreshold pktArp (by decide) rfl).1⟩

/-- C8: for every flow map, a packet with Ethernet destination
ff:ff:ff:ff:ff:ff, or with a source or destination address text containing
':', or with a source or destination address that is an IPv4 address of first
octet at least 224 (inside 224.0.0.0/3, the ignore list loaded at startup), or
with a TCP header with ACK set and SYN clear, or with a destination port that
parses to an integer above 30000, leaves the flow map unchanged and emits no
event, once or repeated any number of times. -/
theorem C8_filter_rejects (m : ConnMap) (p : Packet)
    (h : p.ethDst = some "ff:ff:ff:ff:ff:ff" ∨
      (∃ s d, p.network = some (s, d) ∧ (':' ∈ s.toList ∨ ':' ∈ d.toList)) ∨
      (∃ s d, p.network = some (s, d) ∧
        ((∃ a b c e, ParseIP s = some [a, b, c, e] ∧ 224 ≤ a) ∨
          (∃ a b c e, ParseIP d = some [a, b, c, e] ∧ 224 ≤ a))) ∨
      (∃ tcp, p.tcp = some tcp ∧ tcp.ACK = true ∧ tcp.SYN = false) ∨
      (∃ dpt v, p.transport = some dpt ∧ Atoi dpt = (v, none) ∧ 30000 < v)) :
    capturePacketsStep m p = (m, .None) ∧
    ∀ n, capturePackets m (List.replicate n p) = (m, List.replicate n .None) := by
  have hf : filterPacket p = none := by
    rcases h with h | ⟨s, d, hn, h⟩ | ⟨s, d, hn, h⟩ | ⟨tcp, htcp, hack, hsyn⟩ |
      ⟨dpt, v, ht, hv, hgt⟩
    · simp [filterPacket, packetAddrs, h]
    · have ha : packetAddrs p = none := by
        unfold packetAddrs
        rcases h with h | h
        · have hc : containsColon s = true := by simpa [containsColon] using h
          simp [hn, hc]
        · have hc : containsColon d = true := by simpa [containsColon] using h
          simp [hn, hc]
      simp [filterPacket, ha]
    · have ha : packetAddrs p = none := by
        unfold packetAddrs
        rcases h with ⟨a, b, c, e, hp, h224⟩ | ⟨a, b, c, e, hp, h224⟩
        · simp [hn, ipIsInBlock_of_first_octet s a b c e hp h224]
        · simp [hn, ipIsInBlock_of_first_octet d a b c e hp h224]
      simp [filterPacket, ha]
    · have hao : ackOnly p = true := by simp [ackOnly, htcp, hack, hsyn]
      unfold filterPacket
      cases packetAddrs p with
      | none => rfl
      | some a =>
        cases p.transport with
        | none => rfl
        | some t => simp [hao]
    · unfold filterPacket
      cases packetAddrs p with
      | none => rfl
      | some a => simp [ht, hv, hgt]
  exact ⟨step_of_filter_none m p hf, step_replicate_of_filter_none m p hf⟩

theorem C8_filter_rejects_witness :
    (pktHighPort.transport = some "30001" ∧ Atoi "30001" = (30001, none) ∧
      (30000 : Int) < 30001) ∧
    capturePacketsStep mapAtThreshold pktHighPort = (mapAtThreshold, .None) ∧
    (pktMulticast.network = some ("10.0.0.1", "224.0.0.251") ∧
      ParseIP "224.0.0.251" = some [224, 0, 0, 251] ∧ 224 ≤ 224) ∧
    capturePacketsStep mapAtThreshold pktMulticast = (mapAtThreshold, .None) :=
  ⟨⟨rfl, by decide, by decide⟩,
    (C8_filter_rejects mapAtThreshold pktHighPort
      (Or.inr (Or.inr (Or.inr (Or.inr ⟨"30001", 30001, rfl, by decide, by decide⟩))))).1,
    ⟨rfl, by decide, by decide⟩,
    (C8_filter_rejects mapAtThreshold pktMulticast
      (Or.inr (Or.inr (Or.inl ⟨"10.0.0.1", "224.0.0.251", rfl,
        Or.inr ⟨224, 0, 0, 251, by decide, by decide⟩⟩)))).1⟩

/-- C9: for every flow key k and every two runs from the empty flow map whose
subsequences of packets counted under k are equal, the decisions taken at the
packets of k are the same list in both runs; in that list the first five
entries are no event, the sixth is the full event with ID k and Count 5, and
every later one is the degraded event with ID k and its position as Count; and
a pass on a packet that is not counted under k leaves the count stored for k
unchanged. -/
theorem C9_interleaving_independent (k : String) (ps1 ps2 : List Packet)
    (hsub : ps1.filter (fun p => flowKey p = some k) =
      ps2.filter (fun p => flowKey p = some k)) :
    decisionsAt k ps1 (capturePackets ConnMap.empty ps1).2 =
      decisionsAt k ps2 (capturePackets ConnMap.empty ps2).2 ∧
    (∀ (j : Nat) (d : EventDecision),
      (decisionsAt k ps1 (capturePackets ConnMap.empty ps1).2)[j]? = some d →
      (j < 5 → d = .None) ∧
      (j = 5 → ∃ s dd t, d = .Promote ⟨k, s, dd, t, 5⟩) ∧
      (5 < j → d = .Degrade ⟨k, "", "", "", (j : Int)⟩)) ∧
    (∀ (m : ConnMap) (p : Packet), flowKey p ≠ some k →
      (capturePacketsStep m p).1 k = m k) := by
  refine ⟨?_, ?_, fun m p hp => step_other m p k hp⟩
  · rw [run_decisionsAt, run_decisionsAt]
    unfold flowTexts
    rw [hsub]
  · intro j d hj
    rw [run_decisionsAt, ConnMap.empty_apply, flowRun_getElem?] at hj
    cases ht : (flowTexts k ps1)[j]? with
    | none => simp [ht] at hj
    | some t =>
      simp only [ht, Option.map_some', Option.some.injEq] at hj
      subst hj
      cases j with
      | zero =>
        refine ⟨fun _ => ?_, fun h => by omega, fun h => by omega⟩
        simp [countAfter, flowDecision]
      | succ j =>
        rw [countAfter_none_succ]
        refine ⟨fun h => ?_, fun h => ?_, fun h => ?_⟩
        · exact flowDecision_below _ _ _ (by push_cast; omega)
        · have hj4 : j = 4 := by omega
          subst hj4
          exact ⟨t.1, t.2.1, t.2.2, by simp [flowDecision, minConnCount]⟩
        · have := flowDecision_above ((j : Int) + 1) k t (by omega)
          simpa using this

theorem C9_interleaving_independent_witness :
    ([pktSsh, pktDns, pktSsh].filter
        (fun p => flowKey p = some (connKey "10.0.0.1" "10.0.0.2" "22")) =
      [pktDns, pktSsh, pktDns, pktSsh].filter
        (fun p => flowKey p = some (connKey "10.0.0.1" "10.0.0.2" "22"))) ∧
    decisionsAt (connKey "10.0.0.1" "10.0.0.2" "22") [pktSsh, pktDns, pktSsh]
        (capturePackets ConnMap.empty [pktSsh, pktDns, pktSsh]).2 =
      decisionsAt (connKey "10.0.0.1" "10.0.0.2" "22") [pktDns, pktSsh, pktDns, pktSsh]
        (capturePackets ConnMap.empty [pktDns, pktSsh, pktDns, pktSsh]).2 :=
  ⟨by decide,
    (C9_interleaving_independent (connKey "10.0.0.1" "10.0.0.2" "22")
      [pktSsh, pktDns, pktSsh] [pktDns, pktSsh, pktDns, pktSsh] (by decide)).1⟩

/-- C10: the triples ("1.1.1.1", "2.2.2.2", "22") and ("1.1.1.1", "2.2.2.22",
"2") are distinct, both pass the filter, and their concatenations are the same
text, so every hash function gives them the same key, `connKey` does, and a
run over one packet of each stores the count 2 under that one key. -/
theorem C10_key_not_injective :
    (("1.1.1.1", "2.2.2.2", "22") : String × String × String) ≠ ("1.1.1.1", "2.2.2.22", "2") ∧
    "1.1.1.1" ++ "2.2.2.2" ++ "22" = "1.1.1.1" ++ "2.2.2.22" ++ "2" ∧
    (∀ h : String → Nat,
      toString (h ("1.1.1.1" ++ "2.2.2.2" ++ "22")) =
        toString (h ("1.1.1.1" ++ "2.2.2.22" ++ "2"))) ∧
    connKey "1.1.1.1" "2.2.2.2" "22" = connKey "1.1.1.1" "2.2.2.22" "2" ∧
    filterPacket ⟨none, some ("1.1.1.1", "2.2.2.2"), some "22", none⟩ =
      some ("1.1.1.1", "2.2.2.2", "22") ∧
    filterPacket ⟨none, some ("1.1.1.1", "2.2.2.22"), some "2", none⟩ =
      some ("1.1.1.1", "2.2.2.22", "2") ∧
    (capturePackets ConnMap.empty
      [⟨none, some ("1.1.1.1", "2.2.2.2"), some "22", none⟩,
        ⟨none, some ("1.1.1.1", "2.2.2.22"), some "2", none⟩]).1
      (connKey "1.1.1.1" "2.2.2.2" "22") = some 2 := by
  have hcat : "1.1.1.1" ++ "2.2.2.2" ++ "22" = "1.1.1.1" ++ "2.2.2.22" ++ "2" := by decide
  have hkey : connKey "1.1.1.1" "2.2.2.2" "22" = connKey "1.1.1.1" "2.2.2.22" "2" := by
    unfold connKey; rw [hcat]
  have hf1 : filterPacket ⟨none, some ("1.1.1.1", "2.2.2.2"), some "22", none⟩ =
      some ("1.1.1.1", "2.2.2.2", "22") := by decide
  have hf2 : filterPacket ⟨none, some ("1.1.1.1", "2.2.2.22"), some "2", none⟩ =
      some ("1.1.1.1", "2.2.2.22", "2") := by decide
  refine ⟨by decide, hcat, fun h => by rw [hcat], hkey, hf1, hf2, ?_⟩
  simp only [capturePackets_cons, capturePackets_nil]
  rw [step_of_filter_some _ _ _ _ _ hf2, hkey, countFlow_key,
    step_of_filter_some _ _ _ _ _ hf1, ← hkey, countFlow_key]
  simp [countAfter]

end NetworkAgent
